/-
Verification of the runtime primitives header of the inductor code
generator (cpp_prefix.h): a type-generic modulo, a counter-based RNG
surface, an integer-alias map with a lock-free atomic float add, and
boolean-flag to float-mask conversions.

The C++ code is shallowly embedded:
* 32-bit unsigned values are `ℕ` with explicit `% 2^32` / `% 2^31` masks;
  signed 32-bit lane patterns are decoded through `intValOfU32`.
* IEEE binary32 arithmetic is modelled exactly: every float produced by
  the code under study is a dyadic rational, and rounding to nearest,
  ties to even, on a 24-bit significand is implemented by `roundNat`
  over scaled integers.  The model was checked bit-for-bit against
  hardware float32 on the relevant operations.
* The compare-and-swap retry loop of `atomic_add` is embedded as a
  small-step interleaving relation over a shared cell and a list of
  thread states.
-/
import Mathlib

set_option maxHeartbeats 1000000

/-! ## Binary32 rounding model

`log2N` is a structurally recursive clone of `Nat.log2` (so that the
kernel can evaluate it inside `decide`), and `roundNat` rounds a natural
number to 24 significant bits, to nearest with ties to even.  This is
exactly the significand rounding performed by IEEE binary32 addition,
multiplication and integer conversion in the value ranges exercised by
the code (all values here stay in the normal range). -/

def log2Aux : ℕ → ℕ → ℕ
  | 0, _ => 0
  | fuel+1, n => if n < 2 then 0 else log2Aux fuel (n / 2) + 1

def log2N (n : ℕ) : ℕ := log2Aux n n

theorem log2Aux_eq (fuel n : ℕ) (h : n ≤ fuel) : log2Aux fuel n = Nat.log2 n := by
  induction fuel generalizing n with
  | zero =>
    have hn : n = 0 := by omega
    subst hn
    rw [log2Aux, Nat.log2]
    simp
  | succ f ih =>
    rw [log2Aux, Nat.log2]
    by_cases h2 : n < 2
    · rw [if_pos h2, if_neg (by omega)]
    · rw [if_neg h2, if_pos (by omega), ih (n / 2) (by omega)]

theorem log2N_eq (n : ℕ) : log2N n = Nat.log2 n := log2Aux_eq n n le_rfl

/-- Round `n / 2^k` to an integer, to nearest, ties to even. -/
def rneShift (n k : ℕ) : ℕ :=
  if 2 * (n % 2^k) < 2^k then n / 2^k
  else if 2^k < 2 * (n % 2^k) then n / 2^k + 1
  else if n / 2^k % 2 = 0 then n / 2^k else n / 2^k + 1

/-- Round a natural number to 24 significant binary digits, to nearest,
ties to even: the significand rounding of IEEE binary32. -/
def roundNat (n : ℕ) : ℕ :=
  if n < 2^24 then n
  else rneShift n (log2N n - 23) * 2^(log2N n - 23)

theorem rneShift_ge (n k : ℕ) : n / 2^k ≤ rneShift n k := by
  unfold rneShift
  split_ifs <;> omega

theorem rneShift_le (n k : ℕ) : rneShift n k ≤ n / 2^k + 1 := by
  unfold rneShift
  split_ifs <;> omega

theorem rneShift_mono (k : ℕ) {n m : ℕ} (h : n ≤ m) : rneShift n k ≤ rneShift m k := by
  have hq : n / 2^k ≤ m / 2^k := Nat.div_le_div_right h
  rcases Nat.lt_or_ge (n / 2^k) (m / 2^k) with hlt | hge
  · calc rneShift n k ≤ n / 2^k + 1 := rneShift_le n k
      _ ≤ m / 2^k := hlt
      _ ≤ rneShift m k := rneShift_ge m k
  · have hqeq : n / 2^k = m / 2^k := le_antisymm hq hge
    have hd1 := Nat.div_add_mod n (2^k)
    have hd2 := Nat.div_add_mod m (2^k)
    rw [← hqeq] at hd2
    have hr : n % 2^k ≤ m % 2^k := by omega
    unfold rneShift
    rw [hqeq]
    split_ifs <;> omega

theorem roundNat_lower {n : ℕ} (h : 2^24 ≤ n) : 2^(Nat.log2 n) ≤ roundNat n := by
  have hn0 : n ≠ 0 := by omega
  have hL : 24 ≤ Nat.log2 n := (Nat.le_log2 hn0).mpr (by exact_mod_cast h)
  unfold roundNat
  rw [if_neg (by omega), log2N_eq]
  have hq : 2^23 ≤ n / 2^(Nat.log2 n - 23) := by
    rw [Nat.le_div_iff_mul_le (by positivity)]
    calc 2^23 * 2^(Nat.log2 n - 23) = 2^(23 + (Nat.log2 n - 23)) := by rw [pow_add]
      _ = 2^(Nat.log2 n) := by congr 1; omega
      _ ≤ n := Nat.log2_self_le hn0
  calc 2^(Nat.log2 n) = 2^23 * 2^(Nat.log2 n - 23) := by
        rw [← pow_add]; congr 1; omega
    _ ≤ (n / 2^(Nat.log2 n - 23)) * 2^(Nat.log2 n - 23) :=
        Nat.mul_le_mul_right _ hq
    _ ≤ rneShift n (Nat.log2 n - 23) * 2^(Nat.log2 n - 23) :=
        Nat.mul_le_mul_right _ (rneShift_ge _ _)

theorem roundNat_upper {n : ℕ} (h : 2^24 ≤ n) : roundNat n ≤ 2^(Nat.log2 n + 1) := by
  have hn0 : n ≠ 0 := by omega
  have hL : 24 ≤ Nat.log2 n := (Nat.le_log2 hn0).mpr (by exact_mod_cast h)
  unfold roundNat
  rw [if_neg (by omega), log2N_eq]
  have hub : n < 2^(Nat.log2 n + 1) := Nat.lt_log2_self
  have hq : n / 2^(Nat.log2 n - 23) < 2^24 := by
    rw [Nat.div_lt_iff_lt_mul (by positivity)]
    calc n < 2^(Nat.log2 n + 1) := hub
      _ = 2^24 * 2^(Nat.log2 n - 23) := by rw [← pow_add]; congr 1; omega
  calc rneShift n (Nat.log2 n - 23) * 2^(Nat.log2 n - 23)
      ≤ (n / 2^(Nat.log2 n - 23) + 1) * 2^(Nat.log2 n - 23) :=
        Nat.mul_le_mul_right _ (rneShift_le _ _)
    _ ≤ 2^24 * 2^(Nat.log2 n - 23) := Nat.mul_le_mul_right _ (by omega)
    _ = 2^(Nat.log2 n + 1) := by rw [← pow_add]; congr 1; omega

theorem roundNat_mono {n m : ℕ} (h : n ≤ m) : roundNat n ≤ roundNat m := by
  by_cases hm : m < 2^24
  · have hn : n < 2^24 := by omega
    unfold roundNat
    rw [if_pos hn, if_pos hm]
    exact h
  · push_neg at hm
    by_cases hn : n < 2^24
    · have : roundNat n = n := by unfold roundNat; rw [if_pos hn]
      rw [this]
      calc n ≤ 2^24 := by omega
        _ ≤ 2^(Nat.log2 m) := Nat.pow_le_pow_right (by norm_num)
              ((Nat.le_log2 (by omega)).mpr (by exact_mod_cast hm))
        _ ≤ roundNat m := roundNat_lower hm
    · push_neg at hn
      have hn0 : n ≠ 0 := by omega
      have hm0 : m ≠ 0 := by omega
      have hLle : Nat.log2 n ≤ Nat.log2 m :=
        (Nat.le_log2 hm0).mpr (le_trans (Nat.log2_self_le hn0) h)
      rcases Nat.lt_or_ge (Nat.log2 n) (Nat.log2 m) with hL | hL
      · calc roundNat n ≤ 2^(Nat.log2 n + 1) := roundNat_upper hn
          _ ≤ 2^(Nat.log2 m) := Nat.pow_le_pow_right (by norm_num) (by omega)
          _ ≤ roundNat m := roundNat_lower hm
      · have hLeq : Nat.log2 n = Nat.log2 m := by omega
        unfold roundNat
        rw [if_neg (by omega), if_neg (by omega), log2N_eq, log2N_eq, hLeq]
        exact Nat.mul_le_mul_right _ (rneShift_mono _ h)

/-! ## The uniform conversion `uint32_to_uniform_float`

Source:
  constexpr float uint32_to_uniform_float(uint32_t value) {
    constexpr float scale = 4.6566127342e-10;
    return static_cast<float>(value & 0x7FFFFFFF) * scale;
  }
The decimal literal `4.6566127342e-10` denotes the binary32 value
`16777215 / 2^55` (the largest float below `2^-31`).  The cast of the
masked 31-bit value to binary32 is `roundNat`; the float product by the
scale is the integer product rounded back to 24 significant bits.  The
result is therefore the dyadic rational `uniformWord x / 2^55`. -/

/-- Significand integer of the scale constant: the float
`4.6566127342e-10` is exactly `16777215 * 2^(-55)`. -/
def scaleSig : ℕ := 16777215

/-- Exact value of the binary32 scale constant `4.6566127342e-10`. -/
def scaleQ : ℚ := (scaleSig : ℚ) / 2^55

/-- Numerator (at fixed denominator `2^55`) of the float returned by
`uint32_to_uniform_float`. -/
def uniformWord (x : ℕ) : ℕ := roundNat (roundNat (x % 2^31) * scaleSig)

/-- Exact value of the binary32 float returned by
`uint32_to_uniform_float` on the 32-bit input `x`. -/
def uint32_to_uniform_float (x : ℕ) : ℚ := (uniformWord x : ℚ) / 2^55

theorem uniformWord_le (x : ℕ) : uniformWord x ≤ scaleSig * 2^31 := by
  have hmask : x % 2^31 ≤ 2^31 - 1 := by
    have := Nat.mod_lt x (show 0 < 2^31 by norm_num)
    omega
  have h1 : roundNat (x % 2^31) ≤ 2^31 := by
    calc roundNat (x % 2^31) ≤ roundNat (2^31 - 1) := roundNat_mono hmask
      _ = 2^31 := by decide
  have h2 : roundNat (x % 2^31) * scaleSig ≤ 2^31 * scaleSig :=
    Nat.mul_le_mul_right _ h1
  calc uniformWord x ≤ roundNat (2^31 * scaleSig) := roundNat_mono h2
    _ = scaleSig * 2^31 := by decide

theorem uniformWord_lt (x : ℕ) : uniformWord x < 2^55 := by
  have h := uniformWord_le x
  have : scaleSig * 2^31 < 2^55 := by decide
  omega

/-! ## GenericModulo

Source:
  template <typename T> inline T mod(T a, T b) { return a % b; }
  template <> inline float mod(float a, float b) { return std::fmod(a, b); }
  template <> inline double mod(double a, double b) { return std::fmod(a, b); }
C++ `%` on signed integers truncates toward zero, which is `Int.tmod`;
on unsigned integers it is `Nat.mod`.  `std::fmod(a, b)` is exact in
IEEE arithmetic (no rounding ever occurs), and equals
`a - b * trunc(a / b)` over the reals, so the float/double
specializations are embedded exactly over `ℚ`. -/

/-- Embedding of the generic `mod` template instantiated at a signed
integer type. -/
def mod (a b : ℤ) : ℤ := a.tmod b

/-- Embedding of the generic `mod` template instantiated at an unsigned
integer type. -/
def modU (a b : ℕ) : ℕ := a % b

/-- Truncation toward zero of a rational. -/
def ratTrunc (q : ℚ) : ℤ := if 0 ≤ q then ⌊q⌋ else ⌈q⌉

/-- Embedding of the `float`/`double` specializations of `mod`:
`std::fmod`, the exact IEEE remainder after truncated division. -/
def fmodQ (a b : ℚ) : ℚ := a - b * (ratTrunc (a / b) : ℚ)

/-- The spec's truncating division: quotient of the magnitudes, carrying
the product of the signs (rounding toward zero). -/
def truncDivSpec (a b : ℤ) : ℤ := a.sign * b.sign * ((a.natAbs / b.natAbs : ℕ) : ℤ)

/-- The spec's truncating remainder: remainder of the magnitudes,
carrying the sign of the dividend. -/
def truncRemSpec (a b : ℤ) : ℤ := a.sign * ((a.natAbs % b.natAbs : ℕ) : ℤ)

theorem tmod_eq_spec (a b : ℤ) : a.tmod b = truncRemSpec a b := by
  unfold truncRemSpec
  rcases a with (_ | m) | m <;> rcases b with (_ | n) | n <;>
    simp [Int.tmod, Int.sign, Int.natAbs]

theorem tdiv_eq_spec (a b : ℤ) : a.tdiv b = truncDivSpec a b := by
  unfold truncDivSpec
  rcases a with (_ | m) | m <;> rcases b with (_ | n) | n <;>
    simp [Int.tdiv, Int.sign, Int.natAbs]

theorem ratTrunc_le {q : ℚ} (h : 0 ≤ q) : (ratTrunc q : ℚ) ≤ q := by
  unfold ratTrunc
  rw [if_pos h]
  exact Int.floor_le q

theorem le_ratTrunc {q : ℚ} (h : q ≤ 0) : q ≤ (ratTrunc q : ℚ) := by
  unfold ratTrunc
  split_ifs with h0
  · have : q = 0 := le_antisymm h h0
    simp [this]
  · exact Int.le_ceil q

theorem abs_sub_ratTrunc_lt_one (q : ℚ) : |q - (ratTrunc q : ℚ)| < 1 := by
  unfold ratTrunc
  split_ifs with h0
  · rw [abs_lt]
    constructor
    · have := Int.floor_le q
      linarith
    · have := Int.lt_floor_add_one q
      linarith
  · rw [abs_lt]
    constructor
    · have := Int.ceil_lt_add_one q
      linarith
    · have := Int.le_ceil q
      linarith

/-! ## FlagToFloatMask

Source (scalar-source and array-source overloads):
  template <typename T>
  void flag_to_float(const T* src, float* dst, int64_t n) {
    for (int64_t i = 0; i < n; i++) {
      uint32_t* dst_u32 = (uint32_t*)dst;
      dst_u32[i] = *(src + i) ? 0xFFFFFFFF : 0;
    }
  }
  template <typename T, ...bool or uint8_t...>
  void flag_to_float(T src, float* dst, int64_t n) {
    for (int64_t i = 0; i < n; i++) {
      uint32_t* dst_u32 = (uint32_t*)dst;
      dst_u32[i] = src ? 0xFFFFFFFF : 0;
    }
  }
Both write 32-bit lanes through a `uint32_t` view of the destination, so
the output is modelled directly as the list of stored 32-bit patterns.

Source (vectorized conversion, AVX2/AVX512 only):
  template <typename SRC>
  inline at::vec::Vectorized<float> to_float_mask(at::vec::Vectorized<SRC>& src) {
    at::vec::Vectorized<float> res_vec(0);
    __at_align__ float dst_tmp[at::vec::Vectorized<float>::size()];
    __at_align__ SRC src_tmp[at::vec::Vectorized<SRC>::size()];
    src.store(src_tmp);
    for (int i = 0; i < at::vec::Vectorized<float>::size(); i++) {
      dst_tmp[i] = src_tmp[i] ? 0xFFFFFFFF : 0;
    }
    return res_vec.loadu(dst_tmp);
  }
  template <>
  inline at::vec::Vectorized<float> to_float_mask(at::vec::Vectorized<int>& src) {
    return at::vec::Vectorized<float>(_mm256_cvtepi32_ps(src));
  }
Note that `dst_tmp` has element type `float`: the generic path performs a
VALUE conversion of the unsigned literal `0xFFFFFFFF` to `float`
(yielding 2^32, bit pattern 0x4F800000), not a bit-pattern store; and the
int specialization `_mm256_cvtepi32_ps` / `_mm512_cvtepi32_ps` performs a
VALUE conversion of each signed 32-bit lane to `float`.  Vectors are
modelled as lists of 32-bit lane patterns (8 lanes under AVX2, 16 under
AVX512; both paths are lane-wise, so the lane count is left arbitrary). -/

/-- Batch flag-to-mask conversion: the array-source `flag_to_float`.
`src i` is the `i`-th source flag byte, `n` the count; the result is the
list of the `n` stored 32-bit patterns. -/
def flag_to_float (src : ℕ → ℕ) (n : ℕ) : List ℕ :=
  (List.range n).map (fun i => if src i ≠ 0 then 4294967295 else 0)

/-- Scalar-source (broadcast) `flag_to_float` overload. -/
def flag_to_float_scalar (src : ℕ) (n : ℕ) : List ℕ :=
  (List.range n).map (fun _ => if src ≠ 0 then 4294967295 else 0)

/-- The signed 32-bit integer denoted by a 32-bit lane pattern. -/
def intValOfU32 (v : ℕ) : ℤ := if v < 2^31 then (v : ℤ) else (v : ℤ) - 2^32

/-- Binary32 bit pattern of the positive representable value `r`
(`r` a 24-bit-significand integer, as produced by `roundNat`). -/
def fp32BitsOfPos (r : ℕ) : ℕ :=
  if log2N r ≤ 23 then (log2N r + 127) * 2^23 + (r * 2^(23 - log2N r) - 2^23)
  else (log2N r + 127) * 2^23 + (r / 2^(log2N r - 23) - 2^23)

/-- Binary32 bit pattern produced by converting the unsigned 32-bit
value `v` to `float` (round to nearest, ties to even). -/
def u32ToFloatBits (v : ℕ) : ℕ :=
  if v = 0 then 0 else fp32BitsOfPos (roundNat v)

/-- Binary32 bit pattern produced by converting a signed 32-bit lane
(given as its pattern `v`) to `float`: the semantics of one lane of
`_mm256_cvtepi32_ps` / `_mm512_cvtepi32_ps`. -/
def i32ToFloatBits (v : ℕ) : ℕ :=
  if intValOfU32 v = 0 then 0
  else if 0 < intValOfU32 v then fp32BitsOfPos (roundNat (intValOfU32 v).toNat)
  else 2^31 + fp32BitsOfPos (roundNat (-intValOfU32 v).toNat)

/-- Generic `to_float_mask` instantiated at `SRC = int` (the
instantiation the int specialization replaces): each lane becomes the
`float`-converted VALUE of `0xFFFFFFFF` (that is, 2^32) when the lane is
truthy, else 0.0. -/
def to_float_mask (src : List ℕ) : List ℕ :=
  src.map (fun v => u32ToFloatBits (if intValOfU32 v ≠ 0 then 4294967295 else 0))

/-- The `Vectorized<int>` specialization of `to_float_mask`:
lane-wise `cvtepi32` value conversion. -/
def to_float_mask_int (src : List ℕ) : List ℕ :=
  src.map i32ToFloatBits

/-! ## IntegerAliasMap and the atomic-add compile-time width check

Source:
  template <typename T> struct AsIntegerType { typedef T type; };
  template <> struct AsIntegerType<float> { typedef uint32_t type; };
  template <> struct AsIntegerType<double> { typedef uint64_t type; };
  template <> struct AsIntegerType<bfloat16> { typedef uint16_t type; };
  template <> struct AsIntegerType<half> { typedef uint16_t type; };
and, inside atomic_add:
  static_assert(sizeof(std::atomic<alt_type>) == sizeof(T), "std::atomic issue");
The supported scalar types are modelled as an enumeration with their
byte widths; `std::atomic<I>` over the lock-free unsigned widths used
here has the size of `I` itself, which `sizeofAtomic` records.  The
`static_assert` is a compile-time proposition, modelled by
`atomicAddWidthCheck`. -/

inductive ScalarType where
  | float | double | half | bfloat16
  | boolean | uint8 | int8 | int16 | uint16 | int32 | uint32 | int64 | uint64
deriving DecidableEq

/-- Byte width of each supported scalar type. -/
def sizeofT : ScalarType → ℕ
  | .float => 4 | .double => 8 | .half => 2 | .bfloat16 => 2
  | .boolean => 1 | .uint8 => 1 | .int8 => 1 | .int16 => 2 | .uint16 => 2
  | .int32 => 4 | .uint32 => 4 | .int64 => 8 | .uint64 => 8

/-- The `AsIntegerType` trait: floating types map to the equal-width
unsigned integer type, every other type to itself. -/
def AsIntegerType : ScalarType → ScalarType
  | .float => .uint32
  | .double => .uint64
  | .bfloat16 => .uint16
  | .half => .uint16
  | t => t

/-- Floating-point classification of the supported scalars. -/
def isFloatingT : ScalarType → Bool
  | .float => true | .double => true | .half => true | .bfloat16 => true
  | _ => false

/-- Size of `std::atomic<I>` for the integer alias widths in play (the
lock-free unsigned types, whose atomic wrapper adds no padding). -/
def sizeofAtomic (t : ScalarType) : ℕ := sizeofT t

/-- The `static_assert` of `atomic_add` instantiated at `T = t`:
`sizeof(std::atomic<alt_type>) == sizeof(T)`. -/
def atomicAddWidthCheck (t : ScalarType) : Prop :=
  sizeofAtomic (AsIntegerType t) = sizeofT t

/-! ## CounterRandomSource

Source:
  float normalized_rand_cpu(uint32_t seed, uint32_t offset) {
    return uint32_to_uniform_float(at::Philox4_32(seed, 0, offset)());
  }
  float randn_cpu(uint32_t seed, uint32_t offset) {
    at::Philox4_32 engine(seed, 0, offset);
    return engine.randn(10);
  }
The engine `at::Philox4_32` lives in `ATen/core/PhiloxRNGEngine.h`,
which is part of the same repository but not among the provided source
files, so it is modelled from the spec. -/

/-- Modelled from the spec: one round of the counter-based generator —
"four 32-bit counter words transformed by a fixed number of rounds".
The two lanes are multiplied by fixed constants, split into high/low
32-bit halves and mixed with the key words by xor. -/
def philoxRound (c : ℕ × ℕ × ℕ × ℕ) (k : ℕ × ℕ) : ℕ × ℕ × ℕ × ℕ :=
  let hi0 := c.1 * 3528531795 / 2^32 % 2^32
  let lo0 := c.1 * 3528531795 % 2^32
  let hi1 := c.2.2.1 * 3449720151 / 2^32 % 2^32
  let lo1 := c.2.2.1 * 3449720151 % 2^32
  (Nat.xor (Nat.xor hi1 c.2.1) k.1, lo1, Nat.xor (Nat.xor hi0 c.2.2.2) k.2, lo0)

/-- Modelled from the spec: the per-round key schedule (fixed additive
constants, 32-bit wraparound). -/
def philoxRaiseKey (k : ℕ × ℕ) : ℕ × ℕ :=
  ((k.1 + 2654435769) % 2^32, (k.2 + 3144134277) % 2^32)

/-- Modelled from the spec: the fixed number of rounds applied to the
counter block under the evolving key. -/
def philoxRounds : ℕ → (ℕ × ℕ × ℕ × ℕ) → (ℕ × ℕ) → ℕ × ℕ × ℕ × ℕ
  | 0, c, _ => c
  | n+1, c, k => philoxRounds n (philoxRound c k) (philoxRaiseKey k)

/-- Modelled from the spec: the counter block and key built by
`at::Philox4_32(seed, 0, offset)` — the counter indexed by `offset`,
the key seeded by `seed`, and the fixed auxiliary constant 0 in place
of the second seed component. -/
def philoxInit (seed offset : ℕ) : (ℕ × ℕ × ℕ × ℕ) × (ℕ × ℕ) :=
  ((offset % 2^32, offset / 2^32 % 2^32, 0, 0), (seed % 2^32, 0))

/-- Modelled from the spec: the four output words of one Philox block
for `(seed, offset)`, after the fixed ten rounds. -/
def philoxBlock (seed offset : ℕ) : ℕ × ℕ × ℕ × ℕ :=
  philoxRounds 10 (philoxInit seed offset).1 (philoxInit seed offset).2

/-- The first generated 32-bit word, as returned by the engine's call
operator on a fresh engine. -/
def philoxWord0 (seed offset : ℕ) : ℕ := (philoxBlock seed offset).1

/-- `normalized_rand_cpu`: the uniform generator — the first Philox word
pushed through `uint32_to_uniform_float` (exact binary32 value). -/
def normalized_rand_cpu (seed offset : ℕ) : ℚ :=
  uint32_to_uniform_float (philoxWord0 seed offset)

/-- Modelled from the spec: `randn_cpu` applies a fixed Box–Muller-style
transform to the uniform draws of a fresh engine for `(seed, offset)`.
The transcendental arithmetic of that transform is outside the exact
model; it is represented by a fixed injective pairing of the two
32-bit draws it consumes, which suffices for the determinism and
statelessness properties claimed of it. -/
def randn_cpu (seed offset : ℕ) : ℚ :=
  ((philoxBlock seed offset).1 * 2^32 + (philoxBlock seed offset).2.1 : ℕ)

/-- One caller-visible RNG invocation: either generator, with its
`(seed, offset)` arguments. -/
inductive RNGCall where
  | uniform (seed offset : ℕ)
  | normal (seed offset : ℕ)

/-- Result of one RNG invocation. -/
def runRNGCall : RNGCall → ℚ
  | .uniform s o => normalized_rand_cpu s o
  | .normal s o => randn_cpu s o

/-- A whole sequence of RNG invocations, in call order.  Neither
generator reads or writes anything outside its own frame, so the
sequence is the elementwise image of its calls. -/
def runRNGCalls (l : List RNGCall) : List ℚ := l.map runRNGCall

/-! ## AtomicFloatAdd

Source:
  template <typename T>
  void atomic_add(T* addr, T offset) {
    typedef typename AsIntegerType<T>::type alt_type;
    static_assert(sizeof(std::atomic<alt_type>) == sizeof(T), "std::atomic issue");
    typedef union { alt_type intV; T fV; } uf_int;
    uf_int expected, desired;
    std::atomic<alt_type>* atomic_addr = (std::atomic<alt_type>*)addr;
    expected.fV = *addr;
    desired.fV = expected.fV + offset;
    alt_type* expected_intV = (alt_type*)(&expected.intV);
    while (!std::atomic_compare_exchange_strong(
        atomic_addr, expected_intV, desired.intV)) {
      _mm_pause();                       // or aarch64 yield
      expected.fV = *addr;
      desired.fV = expected.fV + offset;
    }
  }

Interleaving embedding: the shared cell holds a value (a rational — the
claims exercise adds of 1.0 starting from 0.0, a range where binary32
addition is exact, so value arithmetic is the faithful reading of the
bit-level union pun: distinct values have distinct bit patterns there).
Each thread repeatedly (a) reads the cell into `expected` (`pend`),
(b) attempts the compare-exchange: on success the cell becomes
`expected + offset` and one pending add of that thread is consumed; on
failure (cell no longer equal to `expected`) the thread pauses and
loops to a fresh read.  A scheduler step picks any thread. -/

namespace AtomicAdd

/-- One thread of the stress workload: its add `offset`, the number of
adds it still has to land (`ops`), and the `expected` value it has read
and is about to compare-exchange against, if any (`pend`). -/
structure TState where
  off : ℚ
  ops : ℕ
  pend : Option ℚ
deriving DecidableEq

/-- Global configuration: the shared cell and all thread states. -/
structure Config where
  val : ℚ
  ths : List TState
deriving DecidableEq

/-- One interleaving step of the retry loop: a read of the shared cell
into `expected`, a successful compare-exchange (cell still holds the
expected value: install `expected + off`), or a failed compare-exchange
(cell changed: pause and return to the read). -/
inductive Step : Config → Config → Prop where
  | read (c : Config) (i : ℕ) (w : ℚ) (k : ℕ)
      (h : c.ths[i]? = some ⟨w, k + 1, none⟩) :
      Step c ⟨c.val, c.ths.set i ⟨w, k + 1, some c.val⟩⟩
  | casOk (c : Config) (i : ℕ) (w : ℚ) (k : ℕ)
      (h : c.ths[i]? = some ⟨w, k + 1, some c.val⟩) :
      Step c ⟨c.val + w, c.ths.set i ⟨w, k, none⟩⟩
  | casFail (c : Config) (i : ℕ) (w : ℚ) (k : ℕ) (e : ℚ)
      (h : c.ths[i]? = some ⟨w, k + 1, some e⟩) (hne : e ≠ c.val) :
      Step c ⟨c.val, c.ths.set i ⟨w, k + 1, none⟩⟩

/-- Any interleaved execution: reflexive-transitive closure of `Step`. -/
def Steps : Config → Config → Prop := Relation.ReflTransGen Step

/-- A configuration where every thread has completed all its calls. -/
def Done (c : Config) : Prop := ∀ t ∈ c.ths, t.ops = 0

/-- The cell value plus everything still owed by the threads: the
conserved quantity of the loop. -/
def measure (c : Config) : ℚ :=
  c.val + (c.ths.map (fun t => t.off * (t.ops : ℚ))).sum

/-- Initial configuration of the stress workload: the cell at 0.0 and
`n` threads that will each add `1.0` exactly `m` times. -/
def initStress (n m : ℕ) : Config := ⟨0, List.replicate n ⟨1, m, none⟩⟩

/-- Initial configuration of a single uncontended call
`atomic_add(addr, w)` with `*addr = v` at entry. -/
def initSolo (v w : ℚ) : Config := ⟨v, [⟨w, 1, none⟩]⟩

theorem sum_map_set (l : List TState) (i : ℕ) (t u : TState) (f : TState → ℚ)
    (h : l[i]? = some u) :
    ((l.set i t).map f).sum = (l.map f).sum - f u + f t := by
  induction l generalizing i with
  | nil => simp at h
  | cons a l ih =>
    cases i with
    | zero =>
      simp only [List.getElem?_cons_zero, Option.some.injEq] at h
      subst h
      simp only [List.set_cons_zero, List.map_cons, List.sum_cons]
      ring
    | succ j =>
      simp only [List.getElem?_cons_succ] at h
      simp only [List.set_cons_succ, List.map_cons, List.sum_cons, ih j h]
      ring

theorem step_measure {c c' : Config} (h : Step c c') : measure c' = measure c := by
  cases h with
  | read i w k hg =>
    unfold measure
    simp only
    rw [sum_map_set _ _ _ _ _ hg]
    ring
  | casOk i w k hg =>
    unfold measure
    simp only
    rw [sum_map_set _ _ _ _ _ hg]
    push_cast
    ring
  | casFail i w k e hg hne =>
    unfold measure
    simp only
    rw [sum_map_set _ _ _ _ _ hg]
    ring

theorem steps_measure {c c' : Config} (h : Steps c c') : measure c' = measure c := by
  induction h with
  | refl => rfl
  | tail _ hstep ih => rw [step_measure hstep, ih]

theorem measure_done {c : Config} (h : Done c) : measure c = c.val := by
  unfold measure
  have hz : (c.ths.map (fun t => t.off * (t.ops : ℚ))).sum = 0 := by
    apply List.sum_eq_zero
    intro x hx
    rcases List.mem_map.mp hx with ⟨t, ht, rfl⟩
    rw [h t ht]
    simp
  rw [hz, add_zero]

theorem measure_initStress (n m : ℕ) : measure (initStress n m) = n * m := by
  unfold measure initStress
  simp only [List.map_replicate, List.sum_replicate]
  simp [nsmul_eq_mul]

end AtomicAdd

/-! ## Claims -/

/-- C6: for every 32-bit input `x`, `uint32_to_uniform_float x` lies in
`[0, 1)`, depends only on the low 31 bits of `x`, scales by a constant
strictly below `1 / 2^31`, and is monotone non-decreasing as a function
of the low 31 bits. -/
theorem C6_uniform_float_range_and_mono :
    ∀ x y : ℕ,
      (0 ≤ uint32_to_uniform_float x ∧ uint32_to_uniform_float x < 1) ∧
      uint32_to_uniform_float x = uint32_to_uniform_float (x % 2^31) ∧
      scaleQ < 1 / 2^31 ∧
      (x % 2^31 ≤ y % 2^31 → uint32_to_uniform_float x ≤ uint32_to_uniform_float y) := by
  intro x y
  refine ⟨⟨?_, ?_⟩, ?_, ?_, ?_⟩
  · unfold uint32_to_uniform_float
    positivity
  · unfold uint32_to_uniform_float
    rw [div_lt_one (by positivity)]
    exact_mod_cast uniformWord_lt x
  · unfold uint32_to_uniform_float uniformWord
    rw [Nat.mod_mod_of_dvd x dvd_rfl]
  · unfold scaleQ scaleSig
    norm_num
  · intro h
    unfold uint32_to_uniform_float
    rw [div_le_div_iff_of_pos_right (by positivity)]
    have : uniformWord x ≤ uniformWord y := by
      unfold uniformWord
      exact roundNat_mono (Nat.mul_le_mul_right _ (roundNat_mono h))
    exact_mod_cast this

/-- Witness for C6 at a concrete input: monotonicity applied at
`x = 5`, `y = 7`. -/
theorem C6_uniform_float_witness :
    uint32_to_uniform_float 5 ≤ uint32_to_uniform_float 7 :=
  (C6_uniform_float_range_and_mono 5 7).2.2.2 (by norm_num)

/-- C8: `uint32_to_uniform_float` ignores the top bit of its input
(masking with `0x7FFFFFFF` leaves the result unchanged), and the inputs
`0x7FFFFFFF` and `0xFFFFFFFF` both give the near-maximal value
`16777215 / 2^24`, strictly below 1. -/
theorem C8_sign_bit_ignored :
    ∀ x : ℕ,
      uint32_to_uniform_float x = uint32_to_uniform_float (x % 2^31) ∧
      uint32_to_uniform_float x = uint32_to_uniform_float (x &&& 2147483647) ∧
      uint32_to_uniform_float 2147483647 = uint32_to_uniform_float 4294967295 ∧
      uint32_to_uniform_float 2147483647 = 16777215 / 2^24 ∧
      (16777215 : ℚ) / 2^24 < 1 := by
  intro x
  have hmask : x &&& 2147483647 = x % 2^31 := by
    have h := Nat.and_pow_two_sub_one_eq_mod x 31
    norm_num at h
    exact h
  have hlow : ∀ z : ℕ, uint32_to_uniform_float z = uint32_to_uniform_float (z % 2^31) := by
    intro z
    unfold uint32_to_uniform_float uniformWord
    rw [Nat.mod_mod_of_dvd z dvd_rfl]
  refine ⟨hlow x, ?_, ?_, ?_, by norm_num⟩
  · rw [hmask]
    exact hlow x
  · have h : uniformWord 2147483647 = uniformWord 4294967295 := by decide
    unfold uint32_to_uniform_float
    rw [h]
  · have h : uniformWord 2147483647 = 16777215 * 2^31 := by decide
    unfold uint32_to_uniform_float
    rw [h]
    push_cast
    norm_num

/-- C5: the integer instantiations of `mod` compute the truncating
remainder (magnitude remainder carrying the dividend's sign, the
remainder left by division rounded toward zero), and the float/double
specializations compute the exact IEEE remainder-after-truncated-
division, whose sign follows the dividend. -/
theorem C5_mod_semantics :
    (∀ a b : ℤ, mod a b = truncRemSpec a b) ∧
    (∀ a b : ℤ, b * truncDivSpec a b + truncRemSpec a b = a) ∧
    (∀ a b : ℕ, modU a b = a - b * (a / b)) ∧
    (∀ a b : ℚ, b ≠ 0 →
      fmodQ a b = a - b * (ratTrunc (a / b) : ℚ) ∧
      (0 ≤ a → 0 ≤ fmodQ a b) ∧
      (a ≤ 0 → fmodQ a b ≤ 0) ∧
      |fmodQ a b| < |b|) := by
  refine ⟨?_, ?_, ?_, ?_⟩
  · intro a b
    exact tmod_eq_spec a b
  · intro a b
    rw [← tdiv_eq_spec, ← tmod_eq_spec]
    exact Int.tdiv_add_tmod a b
  · intro a b
    unfold modU
    have := Nat.div_add_mod a b
    omega
  · intro a b hb
    have hcancel : b * (a / b) = a := by
      rw [mul_comm]
      exact div_mul_cancel₀ a hb
    refine ⟨rfl, ?_, ?_, ?_⟩
    · intro ha
      unfold fmodQ
      rcases hb.lt_or_lt with hbneg | hbpos
      · have hq : a / b ≤ 0 := div_nonpos_of_nonneg_of_nonpos ha hbneg.le
        have ht : a / b ≤ (ratTrunc (a / b) : ℚ) := le_ratTrunc hq
        have h1 : b * (ratTrunc (a / b) : ℚ) ≤ b * (a / b) :=
          mul_le_mul_of_nonpos_left ht hbneg.le
        linarith [hcancel]
      · have hq : 0 ≤ a / b := div_nonneg ha hbpos.le
        have ht : (ratTrunc (a / b) : ℚ) ≤ a / b := ratTrunc_le hq
        have h1 : b * (ratTrunc (a / b) : ℚ) ≤ b * (a / b) :=
          mul_le_mul_of_nonneg_left ht hbpos.le
        linarith [hcancel]
    · intro ha
      unfold fmodQ
      rcases hb.lt_or_lt with hbneg | hbpos
      · have hq : 0 ≤ a / b := div_nonneg_of_nonpos ha hbneg.le
        have ht : (ratTrunc (a / b) : ℚ) ≤ a / b := ratTrunc_le hq
        have h1 : b * (a / b) ≤ b * (ratTrunc (a / b) : ℚ) :=
          mul_le_mul_of_nonpos_left ht hbneg.le
        linarith [hcancel]
      · have hq : a / b ≤ 0 := div_nonpos_of_nonpos_of_nonneg ha hbpos.le
        have ht : a / b ≤ (ratTrunc (a / b) : ℚ) := le_ratTrunc hq
        have h1 : b * (a / b) ≤ b * (ratTrunc (a / b) : ℚ) :=
          mul_le_mul_of_nonneg_left ht hbpos.le
        linarith [hcancel]
    · have key : fmodQ a b = b * (a / b - (ratTrunc (a / b) : ℚ)) := by
        unfold fmodQ
        rw [mul_sub, hcancel]
      rw [key, abs_mul]
      calc |b| * |a / b - (ratTrunc (a / b) : ℚ)| < |b| * 1 :=
            mul_lt_mul_of_pos_left (abs_sub_ratTrunc_lt_one (a / b)) (abs_pos.mpr hb)
        _ = |b| := mul_one _

/-- Witness for C5 at concrete operands: `(-7) % 3 = -1` in the signed
integer instantiation, and `fmod(7, 2)` is nonnegative. -/
theorem C5_mod_witness : mod (-7) 3 = -1 ∧ 0 ≤ fmodQ 7 2 := by
  constructor
  · rw [C5_mod_semantics.1 (-7) 3]
    decide
  · exact (C5_mod_semantics.2.2.2 7 2 (by norm_num)).2.1 (by norm_num)

/-- C4: the batch flag-to-mask conversion writes, for each index
`i < n` independently, the 32-bit word `0xFFFFFFFF` when the `i`-th
source flag is non-zero and `0` when it is zero; on the source
`[1,0,1,1,0]` it produces `[0xFFFFFFFF,0,0xFFFFFFFF,0xFFFFFFFF,0]`. -/
theorem C4_flag_to_float_batch :
    ∀ (src src' : ℕ → ℕ) (n i : ℕ), i < n →
      (flag_to_float src n)[i]? = some (if src i ≠ 0 then 4294967295 else 0) ∧
      (flag_to_float src n).length = n ∧
      (src i = src' i → (flag_to_float src n)[i]? = (flag_to_float src' n)[i]?) ∧
      flag_to_float (fun j => [1, 0, 1, 1, 0].getD j 0) 5 =
        [4294967295, 0, 4294967295, 4294967295, 0] := by
  intro src src' n i hi
  have hword : ∀ s : ℕ → ℕ,
      (flag_to_float s n)[i]? = some (if s i ≠ 0 then 4294967295 else 0) := by
    intro s
    unfold flag_to_float
    rw [List.getElem?_map _ _ i, List.getElem?_range hi]
    rfl
  refine ⟨hword src, ?_, ?_, ?_⟩
  · unfold flag_to_float
    simp
  · intro h
    rw [hword src, hword src', h]
  · decide

/-- Witness for C4 at the spec's concrete example: position 2 of the
converted `[1,0,1,1,0]` holds the all-ones word. -/
theorem C4_flag_to_float_witness :
    (flag_to_float (fun j => [1, 0, 1, 1, 0].getD j 0) 5)[2]? = some 4294967295 := by
  have h := (C4_flag_to_float_batch (fun j => [1, 0, 1, 1, 0].getD j 0)
    (fun j => [1, 0, 1, 1, 0].getD j 0) 5 2 (by norm_num)).1
  simpa using h

/-- C2 fails on the code: on the vectorized path, a truthy int lane is
converted by VALUE, so the generic `to_float_mask` stores the float
2^32 — bit pattern `0x4F800000`, neither all-zeros nor all-ones — and
the int specialization converts the all-ones input lane `0xFFFFFFFF`
(the integer -1) to `-1.0f`, bit pattern `0xBF800000`, also neither
all-zeros nor all-ones.  (The scalar and batch `flag_to_float` paths do
store only the two mask patterns.) -/
theorem C2_mask_invariant_violation :
    (to_float_mask [1, 1, 1, 1, 1, 1, 1, 1])[0]? = some 0x4F800000 ∧
    ¬(0x4F800000 = 0 ∨ (0x4F800000 : ℕ) = 0xFFFFFFFF) ∧
    (to_float_mask_int [0xFFFFFFFF, 0, 0, 0, 0, 0, 0, 0])[0]? = some 0xBF800000 ∧
    ¬(0xBF800000 = 0 ∨ (0xBF800000 : ℕ) = 0xFFFFFFFF) ∧
    flag_to_float_scalar 1 4 = [0xFFFFFFFF, 0xFFFFFFFF, 0xFFFFFFFF, 0xFFFFFFFF] := by
  refine ⟨by decide, by decide, by decide, by decide, by decide⟩

/-- C3 fails on the code: the int specialization is NOT equivalent to
the generic path.  On the input vector with every lane holding 1, the
generic path makes every lane the float 2^32 (bits `0x4F800000`) while
the `cvtepi32` specialization makes every lane `1.0f` (bits
`0x3F800000`); the two paths agree only when every lane is zero. -/
theorem C3_int_specialization_not_equivalent :
    to_float_mask_int [1, 1, 1, 1, 1, 1, 1, 1] ≠ to_float_mask [1, 1, 1, 1, 1, 1, 1, 1] ∧
    (to_float_mask [1, 1, 1, 1, 1, 1, 1, 1])[0]? = some 0x4F800000 ∧
    (to_float_mask_int [1, 1, 1, 1, 1, 1, 1, 1])[0]? = some 0x3F800000 := by
  refine ⟨by decide, by decide, by decide⟩

/-- C9: the integer-alias mapping is width-exact — `sizeof(alias(T)) ==
sizeof(T)` for every supported scalar type, with exactly the stated
widths, non-floating types mapping to themselves, and the `static_assert`
width check of `atomic_add` holding at every instantiation. -/
theorem C9_integer_alias_widths :
    (∀ t, sizeofT (AsIntegerType t) = sizeofT t) ∧
    (AsIntegerType .float = .uint32 ∧ AsIntegerType .double = .uint64 ∧
     AsIntegerType .half = .uint16 ∧ AsIntegerType .bfloat16 = .uint16) ∧
    (sizeofT .float = 4 ∧ sizeofT .double = 8 ∧ sizeofT .half = 2 ∧
     sizeofT .bfloat16 = 2 ∧ sizeofT .uint32 = 4 ∧ sizeofT .uint64 = 8 ∧
     sizeofT .uint16 = 2) ∧
    (∀ t, isFloatingT t = false → AsIntegerType t = t) ∧
    (∀ t, atomicAddWidthCheck t) := by
  refine ⟨?_, ⟨rfl, rfl, rfl, rfl⟩, ⟨rfl, rfl, rfl, rfl, rfl, rfl, rfl⟩, ?_, ?_⟩
  · intro t
    cases t <;> rfl
  · intro t h
    cases t <;> first | rfl | simp [isFloatingT] at h
  · intro t
    cases t <;> rfl

/-- Witness for C9 at a concrete non-floating type: `int64` is its own
integer alias. -/
theorem C9_integer_alias_witness : AsIntegerType .int64 = .int64 :=
  C9_integer_alias_widths.2.2.2.1 .int64 rfl

/-- C7: both generators are deterministic, stateless functions of
`(seed, offset)`: in any sequence of calls, the result at a given
position is exactly the function of that call's own arguments,
unaffected by all calls before or after it; in particular two identical
calls return identical results. -/
theorem C7_rng_determinism :
    ∀ (pre post : List RNGCall) (c : RNGCall) (s o : ℕ),
      (runRNGCalls (pre ++ c :: post))[pre.length]? = some (runRNGCall c) ∧
      runRNGCalls [.uniform s o, .uniform s o] =
        [normalized_rand_cpu s o, normalized_rand_cpu s o] ∧
      runRNGCalls [.normal s o, .normal s o] = [randn_cpu s o, randn_cpu s o] := by
  intro pre post c s o
  refine ⟨?_, rfl, rfl⟩
  unfold runRNGCalls
  rw [List.getElem?_map _ _ pre.length, List.getElem?_append_right (le_refl pre.length)]
  simp

/-- C1: in the interleaving model of the compare-and-swap retry loop
(exact value arithmetic — adds of 1.0 from 0.0 are exact in binary32 up
to 2^24, and the claim tolerates rounding beyond), every complete
execution of `n` threads each landing `m` adds of 1.0 on a shared cell
starting at 0.0 ends with the cell holding exactly `n * m`: no update
is lost and each call applies its add exactly once. -/
theorem C1_atomic_add_no_lost_updates :
    ∀ (n m : ℕ) (c : AtomicAdd.Config),
      AtomicAdd.Steps (AtomicAdd.initStress n m) c →
      AtomicAdd.Done c →
      c.val = ((n * m : ℕ) : ℚ) := by
  intro n m c hs hd
  have h1 := AtomicAdd.steps_measure hs
  rw [AtomicAdd.measure_done hd, AtomicAdd.measure_initStress] at h1
  rw [h1]
  push_cast
  ring

/-- Witness for C1: a concrete complete interleaving with one thread
and one add, stepping read-then-successful-CAS, ends at 0 + 1 = 1·1. -/
theorem C1_atomic_add_witness :
    (AtomicAdd.Config.mk ((0 : ℚ) + 1) [⟨1, 0, none⟩]).val = ((1 * 1 : ℕ) : ℚ) := by
  refine C1_atomic_add_no_lost_updates 1 1 _ ?_ ?_
  · exact Relation.ReflTransGen.head (AtomicAdd.Step.read _ 0 1 0 rfl)
      (Relation.ReflTransGen.single (AtomicAdd.Step.casOk _ 0 1 0 rfl))
  · intro t ht
    simp only [List.mem_singleton] at ht
    rw [ht]

namespace AtomicAdd

theorem get?_singleton {a b : TState} {i : ℕ} (h : ([a] : List TState)[i]? = some b) :
    i = 0 ∧ b = a := by
  cases i with
  | zero =>
    simp only [List.getElem?_cons_zero, Option.some.injEq] at h
    exact ⟨rfl, h.symm⟩
  | succ j => simp at h

/-- With a single thread performing a single call there are exactly
three reachable configurations: entry, after the read, and after the
(necessarily successful) compare-exchange. -/
theorem solo_reach {v w : ℚ} {c : Config} (h : Steps (initSolo v w) c) :
    c = initSolo v w ∨ c = ⟨v, [⟨w, 1, some v⟩]⟩ ∨ c = ⟨v + w, [⟨w, 0, none⟩]⟩ := by
  induction h with
  | refl => exact Or.inl rfl
  | tail hsteps hstep ih =>
    rcases ih with hb | hb | hb
    all_goals subst hb
    · cases hstep with
      | read i w' k hg =>
        obtain ⟨hi, hu⟩ := get?_singleton hg
        subst hi
        injection hu with h1 h2 h3
        subst h1
        have hk : k = 0 := by omega
        subst hk
        exact Or.inr (Or.inl rfl)
      | casOk i w' k hg =>
        obtain ⟨hi, hu⟩ := get?_singleton hg
        injection hu with h1 h2 h3
        simp at h3
      | casFail i w' k e hg hne =>
        obtain ⟨hi, hu⟩ := get?_singleton hg
        injection hu with h1 h2 h3
        simp at h3
    · cases hstep with
      | read i w' k hg =>
        obtain ⟨hi, hu⟩ := get?_singleton hg
        injection hu with h1 h2 h3
        simp at h3
      | casOk i w' k hg =>
        obtain ⟨hi, hu⟩ := get?_singleton hg
        subst hi
        injection hu with h1 h2 h3
        subst h1
        have hk : k = 0 := by omega
        subst hk
        exact Or.inr (Or.inr rfl)
      | casFail i w' k e hg hne =>
        obtain ⟨hi, hu⟩ := get?_singleton hg
        injection hu with h1 h2 h3
        injection h3 with h4
        exact absurd h4 hne
    · cases hstep with
      | read i w' k hg =>
        obtain ⟨hi, hu⟩ := get?_singleton hg
        injection hu with h1 h2 h3
        omega
      | casOk i w' k hg =>
        obtain ⟨hi, hu⟩ := get?_singleton hg
        injection hu with h1 h2 h3
        omega
      | casFail i w' k e hg hne =>
        obtain ⟨hi, hu⟩ := get?_singleton hg
        injection hu with h1 h2 h3
        omega

end AtomicAdd

/-- C10: an uncontended call `atomic_add(addr, w)` on a cell holding `v`
runs read-then-successful-compare-exchange: the retry (failure) branch
is never even enabled — in every reachable configuration a pending
expected value equals the current cell value — and every completed
configuration holds exactly `v + w`, with the call applied once and
nothing else modified. -/
theorem C10_atomic_add_uncontended :
    ∀ v w : ℚ,
      AtomicAdd.Steps (AtomicAdd.initSolo v w) ⟨v + w, [⟨w, 0, none⟩]⟩ ∧
      (∀ c : AtomicAdd.Config, AtomicAdd.Steps (AtomicAdd.initSolo v w) c →
        (∀ (i : ℕ) (t : AtomicAdd.TState) (e : ℚ),
          c.ths[i]? = some t → t.pend = some e → e = c.val) ∧
        (AtomicAdd.Done c → c = ⟨v + w, [⟨w, 0, none⟩]⟩)) := by
  intro v w
  constructor
  · exact Relation.ReflTransGen.head (AtomicAdd.Step.read _ 0 w 0 rfl)
      (Relation.ReflTransGen.single (AtomicAdd.Step.casOk _ 0 w 0 rfl))
  · intro c hsc
    rcases AtomicAdd.solo_reach hsc with rfl | rfl | rfl
    · constructor
      · intro i t e hget hpend
        obtain ⟨hi, ht⟩ := AtomicAdd.get?_singleton hget
        rw [ht] at hpend
        simp at hpend
      · intro hd
        have h1 := hd ⟨w, 1, none⟩ (by simp [AtomicAdd.initSolo])
        simp at h1
    · constructor
      · intro i t e hget hpend
        obtain ⟨hi, ht⟩ := AtomicAdd.get?_singleton hget
        rw [ht] at hpend
        injection hpend with h4
        exact h4.symm
      · intro hd
        have h1 := hd ⟨w, 1, some v⟩ (by simp)
        simp at h1
    · exact ⟨fun i t e hget hpend => by
        obtain ⟨hi, ht⟩ := AtomicAdd.get?_singleton hget
        rw [ht] at hpend
        simp at hpend,
        fun _ => rfl⟩

/-- Witness for C10 at `v = 2`, `w = 3`: the completed configuration of
the uncontended call holds `2 + 3 = 5`. -/
theorem C10_atomic_add_witness :
    AtomicAdd.Config.mk ((2 : ℚ) + 3) [⟨3, 0, none⟩] = ⟨(2 : ℚ) + 3, [⟨3, 0, none⟩]⟩ ∧
    (2 : ℚ) + 3 = 5 := by
  constructor
  · exact ((C10_atomic_add_uncontended 2 3).2 _ (C10_atomic_add_uncontended 2 3).1).2
      (by intro t ht; simp only [List.mem_singleton] at ht; rw [ht])
  · norm_num
